import Mathlib

/-!
Shallow embedding of the dependency-graph engine of `src/main.py`
(class `PackageAnalyzer`): version-range resolution
(`resolve_version_range`), registry package-info fetching
(`get_npm_package_info`), iterative graph construction
(`_build_graph_from_npm`), cycle detection (`detect_cycles`) and
reverse-dependency queries (`find_reverse_dependencies`).

Modelling conventions:
- a package registry is a finite association list from package name to
  metadata (optional dist-tags "latest" entry, plus a list of published
  versions, each carrying its declared dependency mapping in manifest
  order); Python dicts become association lists that preserve insertion
  order, dict lookup becomes first-match `List.lookup`;
- the external `semver` library is an oracle (`SemverOracle`): a total
  comparison used as the sort key and a match test returning `Option
  Bool` (`none` models `semver.match` raising, which the source catches
  with a bare `except: continue`);
- network calls are total lookups in the registry value; an absent
  package name models an HTTP 404, an absent version models the
  version-missing branch.  Exceptions become `Except String` values
  carrying the exact message the source interpolates.  Note that the
  `raise DependencyError` for a missing version at line 63 of the source
  happens inside the enclosing `try`, so it is caught by the
  `except Exception` clause at line 69 and re-wrapped with the prefix
  "Ошибка получения пакета: "; the 404 re-raise happens inside an
  `except` clause and therefore propagates unwrapped;
- `while` loops become fuel-indexed recursion; the fuel supplied by the
  wrapper functions strictly exceeds the maximal possible number of loop
  iterations (for the builder this is proved: see
  `buildLoop_stack_empty`), so the embedded functions compute exactly
  the source's runs;
- the builder threads a ghost state recording fetch calls, stack pushes,
  failed keys and iteration counts, which the source exhibits only
  observationally (registry hit counts, prints);
- the Python idiom `resolved_dep_version if 'resolved_dep_version' in
  locals() else dep_version` at line 167 is modelled by the `rdv` field:
  `resolved_dep_version` enters `locals()` the first time some
  range-specified dependency is resolved and persists for the rest of
  the method call, across loop iterations.
-/

namespace PackageAnalyzer

/-- A dependency graph: ordered mapping from package key (`name@version`)
to its ordered list of direct dependency keys (`self.dependency_graph`). -/
abbrev Graph := List (String × List String)

/-- Dict lookup with default: `self.dependency_graph.get(p, [])`. -/
def depsOf (g : Graph) (p : String) : List String :=
  (List.lookup p g).getD []

/-- Edge relation of a dependency graph: `b` is a declared direct
dependency of `a`. -/
def edgeRel (g : Graph) (a b : String) : Prop := b ∈ depsOf g a

/-- Registry metadata for one package name: the optional
`dist-tags.latest` entry and the published versions, each with the
dependency mapping (`dependencies`) its manifest declares, in
declaration order. -/
structure PkgMeta where
  latestTag : Option String
  versions : List (String × List (String × String))
deriving DecidableEq

/-- A package registry: finite association list from package name to
metadata.  Models `registry.npmjs.org` as consulted by the source. -/
structure Registry where
  pkgs : List (String × PkgMeta)

/-- Oracle for the external `semver` library: `le` is the total order
used as the sort key (`semver.VersionInfo.parse` comparison), `sat`
models `semver.match`, with `none` standing for a raised exception
(swallowed by the source's bare `except: continue`). -/
structure SemverOracle where
  le : String → String → Bool
  sat : String → String → Option Bool

/-- The range-indicator characters of line 145/159: `'^~><|'`. -/
def rangeChars : List Char := ['^', '~', '>', '<', '|']

/-- Python's `char in version` membership test on a string. -/
def strHasChar (s : String) (c : Char) : Bool :=
  s.data.any (fun x => x == c)

/-- Line 145/159: `any(char in version for char in '^~><|')`. -/
def hasRangeChar (version : String) : Bool :=
  rangeChars.any (fun c => strHasChar version c)

/-- Stable descending insertion used to model
`versions.sort(key=..., reverse=True)`; `ge a b` means `a` sorts no
later than `b` (descending comparison on the semver parse key). -/
def insertDesc (ge : String → String → Bool) (x : String) :
    List String → List String
  | [] => [x]
  | y :: ys => if ge x y then x :: y :: ys else y :: insertDesc ge x ys

/-- Stable sort, descending under `ge` (Python `sort(..., reverse=True)`). -/
def sortDesc (ge : String → String → Bool) : List String → List String
  | [] => []
  | x :: xs => insertDesc ge x (sortDesc ge xs)

/-- Lines 115-134, `resolve_version_range`: fetch the package metadata;
on HTTP success return the `latest` dist-tag if present, otherwise scan
the published versions newest-first and return the first one matching
the range, falling back to the newest version, or to the original range
when no versions exist; any failure returns the original range. -/
def resolve_version_range (sv : SemverOracle) (reg : Registry)
    (package_name version_range : String) : String :=
  match List.lookup package_name reg.pkgs with
  | none => version_range
  | some meta =>
    match meta.latestTag with
    | some latest => latest
    | none =>
      let versions := sortDesc (fun a b => sv.le b a) (meta.versions.map Prod.fst)
      match versions.find? (fun v => (sv.sat v version_range).getD false) with
      | some v => v
      | none => versions.headD version_range

/-- Lines 57-70, `get_npm_package_info`: fetch the package metadata and
return the declared dependency mapping of the requested version, or a
`DependencyError` message.  A missing package name is the 404 branch; a
missing version raises inside the `try`, so the message is re-wrapped by
the `except Exception` handler (see the module comment). -/
def get_npm_package_info (reg : Registry) (package_name version : String) :
    Except String (List (String × String)) :=
  match List.lookup package_name reg.pkgs with
  | none => .error ("Пакет " ++ package_name ++ " не найден")
  | some meta =>
    match List.lookup version meta.versions with
    | none => .error ("Ошибка получения пакета: Версия " ++ version ++ " не найдена")
    | some info => .ok info

/-- Published version strings of a package, as
`list(data.get('versions', {}).keys())`. -/
def publishedVersions (reg : Registry) (package_name : String) : List String :=
  match List.lookup package_name reg.pkgs with
  | none => []
  | some meta => meta.versions.map Prod.fst

/-- Lines 145-149 (and 159-160 for dependencies): resolve a version
specifier only when it contains a range character.  Returns the version
to use and the number of registry metadata GET requests performed
(`resolve_version_range` issues exactly one `requests.get` per call). -/
def resolveNodeVersion (sv : SemverOracle) (reg : Registry)
    (package version : String) : String × Nat :=
  if hasRangeChar version then (resolve_version_range sv reg package version, 1)
  else (version, 0)

/-- State of the iterative DFS of `_build_graph_from_npm` (lines
137-171).  `stack`, `visited` and `dependency_graph` are the source's
locals; the head of `stack` is the top (Python `deque.append`/`pop`
work on the right end).  `rdv` models whether, and with which value,
`resolved_dep_version` is present in `locals()`.  The remaining fields
are ghost observations: package-info fetch calls in order, count of
`requests.get` calls made by `resolve_version_range`, keys whose fetch
failed, the `(name, version)` pairs pushed onto the stack, and the
number of `while` iterations executed. -/
structure BuildState where
  stack : List (String × String)
  visited : List String
  dependency_graph : Graph
  rdv : Option String
  fetchLog : List (String × String)
  resolveFetches : Nat
  failedKeys : List String
  pushLog : List (String × String)
  iterations : Nat

/-- Lines 157-167, the `for dep_name, dep_version in dependencies.items()`
loop: resolve range specifiers, build `dep_key`, collect it into
`resolved_dependencies` (returned first component), and push
`(dep_name, resolved_dep_version if 'resolved_dep_version' in locals()
else dep_version)` when `dep_key` is unvisited. -/
def processDeps (sv : SemverOracle) (reg : Registry) :
    List (String × String) → BuildState → List String × BuildState
  | [], st => ([], st)
  | (dep_name, dep_version) :: restDeps, st =>
    let step : String × BuildState :=
      if hasRangeChar dep_version then
        let r := resolve_version_range sv reg dep_name dep_version
        (dep_name ++ "@" ++ r,
         { st with rdv := some r, resolveFetches := st.resolveFetches + 1 })
      else
        (dep_name ++ "@" ++ dep_version, st)
    let dep_key := step.1
    let st1 := step.2
    let st2 :=
      if dep_key ∈ st1.visited then st1
      else
        let pushed := (dep_name, st1.rdv.getD dep_version)
        { st1 with stack := pushed :: st1.stack,
                   pushLog := st1.pushLog ++ [pushed] }
    let pd := processDeps sv reg restDeps st2
    (dep_key :: pd.1, pd.2)

/-- Lines 143-171, the `while stack:` loop, fuel-indexed.  Pop a
`(package, version)` pair, resolve ranges, skip visited keys, otherwise
mark visited, fetch the package info and either record its resolved
dependencies (pushing unvisited ones) or, on a `DependencyError`,
record an empty dependency list and continue. -/
def buildLoop (sv : SemverOracle) (reg : Registry) :
    Nat → BuildState → BuildState
  | 0, st => st
  | fuel + 1, st =>
    match st.stack with
    | [] => st
    | (package, version0) :: rest =>
      let rv := resolveNodeVersion sv reg package version0
      let version := rv.1
      let package_key := package ++ "@" ++ version
      let st1 := { st with stack := rest, iterations := st.iterations + 1,
                           resolveFetches := st.resolveFetches + rv.2 }
      if package_key ∈ st1.visited then
        buildLoop sv reg fuel st1
      else
        let st2 := { st1 with visited := st1.visited ++ [package_key],
                              fetchLog := st1.fetchLog ++ [(package, version)] }
        match get_npm_package_info reg package version with
        | .error _ =>
          buildLoop sv reg fuel
            { st2 with dependency_graph := st2.dependency_graph ++ [(package_key, [])],
                       failedKeys := st2.failedKeys ++ [package_key] }
        | .ok deps =>
          let pd := processDeps sv reg deps st2
          buildLoop sv reg fuel
            { pd.2 with dependency_graph := pd.2.dependency_graph ++ [(package_key, pd.1)] }

/-- Total number of dependency declarations across every published
version of every registry package. -/
def registryTotalDeps (reg : Registry) : Nat :=
  (reg.pkgs.map (fun nm =>
    ((nm.2.versions.map (fun vd => vd.2.length)).sum))).sum

/-- Fuel supplied to `buildLoop`: strictly more than the maximal number
of `while` iterations any run can perform (see `buildLoop_stack_empty`). -/
def buildFuel (reg : Registry) : Nat := registryTotalDeps reg + 2

/-- Initial builder state: `stack = deque([(start_package, start_version)])`,
empty visited set and graph, `resolved_dep_version` not yet in `locals()`. -/
def initBuildState (start_package start_version : String) : BuildState :=
  ⟨[(start_package, start_version)], [], [], none, [], 0, [], [], 0⟩

/-- Lines 137-171, `_build_graph_from_npm`, run from the configured
start package and version. -/
def build_graph_from_npm (sv : SemverOracle) (reg : Registry)
    (start_package start_version : String) : BuildState :=
  buildLoop sv reg (buildFuel reg) (initBuildState start_package start_version)

/-- Total number of edges declared in a built dependency graph. -/
def graphTotalDeps (g : Graph) : Nat := (g.map (fun e => e.2.length)).sum

/-- Fuel for the per-start-node traversals of `detect_cycles` and
`find_reverse_dependencies`: strictly more than the maximal number of
iterations of one inner `while` loop (each pop beyond the initial one is
a previous push, and every push consumes one edge of a node that is
processed at most once). -/
def dfsFuel (g : Graph) : Nat := graphTotalDeps g + 1

/-- Line 186-187: the recorded cycle,
`path[path.index(neighbor):] + [neighbor]`. -/
def cycleFrom (path : List String) (neighbor : String) : List String :=
  path.drop (path.indexOf neighbor) ++ [neighbor]

/-- Lines 184-191, the neighbor loop of `detect_cycles`: record a cycle
for neighbors already on the path (deduplicating by exact sequence),
push unvisited neighbors with the extended path. -/
def cycleNbrs (path visited : List String) :
    List String → List (String × List String) → List (List String) →
    List (String × List String) × List (List String)
  | [], stack, cycles => (stack, cycles)
  | nb :: nbs, stack, cycles =>
    if nb ∈ path then
      let cyc := cycleFrom path nb
      cycleNbrs path visited nbs stack
        (if cyc ∈ cycles then cycles else cycles ++ [cyc])
    else if nb ∈ visited then
      cycleNbrs path visited nbs stack cycles
    else
      cycleNbrs path visited nbs ((nb, path ++ [nb]) :: stack) cycles

/-- Lines 179-191, the `while stack:` loop of one cycle-detection DFS,
fuel-indexed; stack entries carry `(node, path-from-start)`. -/
def cycleDfs (g : Graph) :
    Nat → List (String × List String) → List String → List (List String) →
    List (List String)
  | 0, _, _, cycles => cycles
  | fuel + 1, stack, visited, cycles =>
    match stack with
    | [] => cycles
    | (current, path) :: rest =>
      if current ∈ visited then cycleDfs g fuel rest visited cycles
      else
        let pr := cycleNbrs path (current :: visited) (depsOf g current) rest cycles
        cycleDfs g fuel pr.1 (current :: visited) pr.2

/-- Lines 174-192, `detect_cycles`: run one independent DFS from every
node of the graph in insertion order, accumulating cycles. -/
def detect_cycles (g : Graph) : List (List String) :=
  g.foldl (fun cycles e => cycleDfs g (dfsFuel g) [(e.1, [e.1])] [] cycles) []

/-- Lines 211-216, the dependency loop of `find_reverse_dependencies`:
record `current_package` (if not already recorded) whenever one of its
dependencies is the target, and push unvisited dependencies. -/
def revNbrs (target current : String) (visited : List String) :
    List String → List String → List String → List String × List String
  | [], stack, acc => (stack, acc)
  | dep :: deps, stack, acc =>
    let acc' := if dep = target then
        (if current ∈ acc then acc else acc ++ [current])
      else acc
    let stack' := if dep ∈ visited then stack else dep :: stack
    revNbrs target current visited deps stack' acc'

/-- Lines 206-216, the `while stack:` loop of one reverse-dependency
DFS, fuel-indexed. -/
def revDfs (g : Graph) (target : String) :
    Nat → List String → List String → List String → List String
  | 0, _, _, acc => acc
  | fuel + 1, stack, visited, acc =>
    match stack with
    | [] => acc
    | current :: rest =>
      if current ∈ visited then revDfs g target fuel rest visited acc
      else
        let pr := revNbrs target current (current :: visited)
          (depsOf g current) rest acc
        revDfs g target fuel pr.1 (current :: visited) pr.2

/-- Lines 201-217, `find_reverse_dependencies`: run one independent DFS
from every node of the graph, accumulating the recorded packages. -/
def find_reverse_dependencies (g : Graph) (target_package : String) :
    List String :=
  g.foldl (fun acc e => revDfs g target_package (dfsFuel g) [e.1] [] acc) []

/-! Concrete fixtures used by counterexamples and witnesses. -/

/-- A trivial semver oracle (the oracle is irrelevant whenever the
sort-and-match branch of `resolve_version_range` is not reached). -/
def sv0 : SemverOracle := ⟨fun _ _ => true, fun _ _ => none⟩

/-- The three-node cycle `A→B, B→C, C→A` from the specification. -/
def gCyc : Graph := [("A", ["B"]), ("B", ["C"]), ("C", ["A"])]

/-- The chain `A→B→C` from the specification. -/
def gChain : Graph := [("A", ["B"]), ("B", ["C"]), ("C", [])]

/-- Registry whose root declares one range dependency (resolving to
version 1.5.0 of package a) followed by one concrete dependency
(`b` at 2.0.0). -/
def regC3 : Registry := ⟨[
  ("root", ⟨none, [("1.0.0", [("a", "^1.0.0"), ("b", "2.0.0")])]⟩),
  ("a", ⟨some "1.5.0", [("1.5.0", [])]⟩),
  ("b", ⟨none, [("2.0.0", [])]⟩)]⟩

/-- Registry in which the root's dependency `X` is absent (its fetch
fails) while `Y` and its transitive dependency `Z` are present. -/
def regC9 : Registry := ⟨[
  ("R", ⟨none, [("1.0.0", [("X", "1.0.0"), ("Y", "1.0.0")])]⟩),
  ("Y", ⟨none, [("1.0.0", [("Z", "1.0.0")])]⟩),
  ("Z", ⟨none, [("1.0.0", [])]⟩)]⟩

/-- Registry with package `p` published only at version 7.7.7. -/
def regC8 : Registry := ⟨[("p", ⟨none, [("7.7.7", [])]⟩)]⟩

/-- Metadata carrying a `latest` dist-tag. -/
def meta7 : PkgMeta := ⟨some "3.0.0", [("1.0.0", [])]⟩

/-- Registry whose package `p` exposes `latest = 3.0.0`. -/
def regC7 : Registry := ⟨[("p", meta7)]⟩

/-- Occurrence of one string inside another (substring test), used to
state what data an error message does or does not carry. -/
def strOccurs (needle hay : String) : Bool :=
  (List.range (hay.data.length + 1)).any
    (fun i => needle.data == (hay.data.drop i).take needle.data.length)

/-- C1, counterexample.  On the chain `A→B→C` with target `C`,
`find_reverse_dependencies` returns exactly `[B]`: the claim's assertion
that `A` (a transitive ancestor) is included fails, because line 213 of
the source records `current_package` (the direct parent holding the edge
to the target), not the start node `package` of the traversal. -/
theorem find_reverse_dependencies_transitive_cex :
    find_reverse_dependencies gChain "C" = ["B"] ∧
    "A" ∉ find_reverse_dependencies gChain "C" := by decide

/-- C2, counterexample.  On `A→B, B→C, C→A` the function returns three
cycles (one rotation per start node), not exactly one, and three exceeds
the single distinct simple cycle present: dedup at line 188 compares
exact sequences, so rotations are all kept. -/
theorem detect_cycles_single_cycle_cex :
    detect_cycles gCyc ≠ [["A", "B", "C", "A"]] ∧
    (detect_cycles gCyc).length = 3 := by decide

/-- C2, amended.  On `A→B, B→C, C→A` the function returns exactly the
three rotations of the unique simple cycle, one discovered from each
start node, in start-node order. -/
theorem detect_cycles_rotation_per_start :
    detect_cycles gCyc =
      [["A", "B", "C", "A"], ["B", "C", "A", "B"], ["C", "A", "B", "C"]] := by decide

/-- C3, failing-input evaluation.  Building from `root@1.0.0` in
`regC3`: dependency `a` is range-specified and resolves to 1.5.0, so
`resolved_dep_version` enters `locals()`; the following concrete
dependency `b` at 2.0.0 is then pushed as `(b, 1.5.0)` — the version
resolved for `a` — although its own graph edge correctly records
`b@2.0.0`.  The phantom node `b@1.5.0` is expanded (and fails) while
`b@2.0.0` is never expanded. -/
theorem build_pushes_stale_resolved_version :
    (build_graph_from_npm sv0 regC3 "root" "1.0.0").pushLog =
      [("a", "1.5.0"), ("b", "1.5.0")] ∧
    ("b", "2.0.0") ∉ (build_graph_from_npm sv0 regC3 "root" "1.0.0").pushLog ∧
    depsOf (build_graph_from_npm sv0 regC3 "root" "1.0.0").dependency_graph
      "root@1.0.0" = ["a@1.5.0", "b@2.0.0"] ∧
    (build_graph_from_npm sv0 regC3 "root" "1.0.0").visited =
      ["root@1.0.0", "b@1.5.0", "a@1.5.0"] := by decide

/-- C9, failing-input evaluation.  In `regC9` the failing node
`X@1.0.0` gets an empty dependency list and the build completes with all
other reachable nodes present — but in `regC3` (one fetch failure at the
phantom key `b@1.5.0`) the node `b@2.0.0`, reachable through the
non-failing root via a recorded edge, is absent from the graph: the
stale-`resolved_dep_version` slip of line 167 diverts its expansion to
`b@1.5.0`. -/
theorem build_failure_tolerance_eval :
    ((build_graph_from_npm sv0 regC9 "R" "1.0.0").dependency_graph =
       [("R@1.0.0", ["X@1.0.0", "Y@1.0.0"]), ("Y@1.0.0", ["Z@1.0.0"]),
        ("Z@1.0.0", []), ("X@1.0.0", [])] ∧
     (build_graph_from_npm sv0 regC9 "R" "1.0.0").stack = []) ∧
    ((build_graph_from_npm sv0 regC3 "root" "1.0.0").failedKeys = ["b@1.5.0"] ∧
     List.lookup "b@1.5.0"
       (build_graph_from_npm sv0 regC3 "root" "1.0.0").dependency_graph = some [] ∧
     (build_graph_from_npm sv0 regC3 "root" "1.0.0").stack = [] ∧
     "b@2.0.0" ∈ depsOf (build_graph_from_npm sv0 regC3 "root" "1.0.0").dependency_graph
       "root@1.0.0" ∧
     "b@2.0.0" ∉ ((build_graph_from_npm sv0 regC3 "root" "1.0.0").dependency_graph).map
       Prod.fst) := by decide

/-- C6.  A specifier with none of the range characters is used as-is:
the build's resolution step returns it unchanged and performs no
registry metadata fetch. -/
theorem resolve_concrete_no_fetch (sv : SemverOracle) (reg : Registry)
    (package version : String) (h : hasRangeChar version = false) :
    resolveNodeVersion sv reg package version = (version, 0) := by
  simp [resolveNodeVersion, h]

/-- C6, witness at a concrete input. -/
theorem resolve_concrete_no_fetch_witness :
    hasRangeChar "1.2.3" = false ∧
    resolveNodeVersion sv0 regC7 "left-pad" "1.2.3" = ("1.2.3", 0) :=
  ⟨by decide, resolve_concrete_no_fetch sv0 regC7 "left-pad" "1.2.3" (by decide)⟩

/-- C7.  Whenever the registry metadata of the queried package carries a
`latest` dist-tag, `resolve_version_range` returns that tag's value,
regardless of the requested range and of the published versions. -/
theorem resolve_latest_tag_priority (sv : SemverOracle) (reg : Registry)
    (name range : String) (meta : PkgMeta) (latest : String)
    (hname : List.lookup name reg.pkgs = some meta)
    (hlatest : meta.latestTag = some latest) :
    resolve_version_range sv reg name range = latest := by
  simp [resolve_version_range, hname, hlatest]

/-- C7, witness at a concrete input. -/
theorem resolve_latest_tag_priority_witness :
    (List.lookup "p" regC7.pkgs = some meta7 ∧ meta7.latestTag = some "3.0.0") ∧
    resolve_version_range sv0 regC7 "p" "^1.0.0" = "3.0.0" :=
  ⟨⟨by decide, by decide⟩,
   resolve_latest_tag_priority sv0 regC7 "p" "^1.0.0" meta7 "3.0.0"
     (by decide) (by decide)⟩

/-- C8, counterexample.  When package `p` exists but version 2.0.0 is
not published, the raised error message is exactly the wrapped
"Ошибка получения пакета: Версия 2.0.0 не найдена": no published version
(in particular none of the first five, here 7.7.7) occurs anywhere in
the payload, refuting the claim that it carries up to five example
available versions. -/
theorem version_error_lacks_available_cex :
    get_npm_package_info regC8 "p" "2.0.0" =
      .error ("Ошибка получения пакета: Версия 2.0.0 не найдена") ∧
    publishedVersions regC8 "p" ≠ [] ∧
    ∀ v ∈ (publishedVersions regC8 "p").take 5,
      strOccurs v ("Ошибка получения пакета: Версия 2.0.0 не найдена") = false :=
  ⟨rfl, by decide, by decide⟩

/-- C8, amended.  When the package exists and the requested concrete
version is absent from its published versions, the fetch fails with a
`DependencyError` whose message names only the missing version (wrapped
by the `except Exception` handler); no available versions are carried. -/
theorem version_not_found_wrapped_message (reg : Registry)
    (name version : String) (meta : PkgMeta)
    (hname : List.lookup name reg.pkgs = some meta)
    (hver : List.lookup version meta.versions = none) :
    get_npm_package_info reg name version =
      .error ("Ошибка получения пакета: Версия " ++ version ++ " не найдена") := by
  simp [get_npm_package_info, hname, hver]

/-- C8, witness at a concrete input. -/
theorem version_not_found_wrapped_message_witness :
    (List.lookup "p" regC8.pkgs = some (⟨none, [("7.7.7", [])]⟩ : PkgMeta) ∧
     List.lookup "2.0.0" (PkgMeta.versions ⟨none, [("7.7.7", [])]⟩) = none) ∧
    get_npm_package_info regC8 "p" "2.0.0" =
      .error ("Ошибка получения пакета: Версия " ++ "2.0.0" ++ " не найдена") :=
  ⟨⟨by decide, by decide⟩,
   version_not_found_wrapped_message regC8 "p" "2.0.0" ⟨none, [("7.7.7", [])]⟩
     (by decide) (by decide)⟩

/-! Association-list lookup helpers. -/

theorem lookup_cons_beq {β : Type} {a k : String} {v : β} {es : List (String × β)}
    (h : (a == k) = true) : List.lookup a ((k, v) :: es) = some v := by
  rw [List.lookup, h]

theorem lookup_cons_bne {β : Type} {a k : String} {v : β} {es : List (String × β)}
    (h : (a == k) = false) : List.lookup a ((k, v) :: es) = List.lookup a es := by
  rw [List.lookup, h]

theorem lookup_mem {β : Type} {b : β} {a : String} :
    ∀ {l : List (String × β)}, List.lookup a l = some b → (a, b) ∈ l := by
  intro l
  induction l with
  | nil => intro h; simp [List.lookup] at h
  | cons e es ih =>
    obtain ⟨k, v⟩ := e
    intro h
    cases hbeq : (a == k) with
    | false =>
      rw [lookup_cons_bne hbeq] at h
      exact List.mem_cons_of_mem _ (ih h)
    | true =>
      rw [lookup_cons_beq hbeq] at h
      have ha : a = k := eq_of_beq hbeq
      have hb : v = b := by injection h
      rw [ha, ← hb]
      exact List.mem_cons_self _ _

theorem lookup_append_left {β : Type} {b : β} {a : String} :
    ∀ {l l' : List (String × β)},
      List.lookup a l = some b → List.lookup a (l ++ l') = some b := by
  intro l l'
  induction l with
  | nil => intro h; simp [List.lookup] at h
  | cons e es ih =>
    obtain ⟨k, v⟩ := e
    intro h
    rw [List.cons_append]
    cases hbeq : (a == k) with
    | false =>
      rw [lookup_cons_bne hbeq] at h
      rw [lookup_cons_bne hbeq]
      exact ih h
    | true =>
      rw [lookup_cons_beq hbeq] at h
      rw [lookup_cons_beq hbeq]
      exact h

theorem lookup_eq_none_of_not_mem_keys {β : Type} {a : String} :
    ∀ {l : List (String × β)}, a ∉ l.map Prod.fst → List.lookup a l = none := by
  intro l
  induction l with
  | nil => intro _; rfl
  | cons e es ih =>
    obtain ⟨k, v⟩ := e
    intro h
    cases hbeq : (a == k) with
    | false =>
      rw [lookup_cons_bne hbeq]
      exact ih (fun hm => h (by simp [hm]))
    | true =>
      exfalso
      exact h (by simp [eq_of_beq hbeq])

theorem lookup_append_of_none {β : Type} {a : String} :
    ∀ {l l' : List (String × β)},
      List.lookup a l = none → List.lookup a (l ++ l') = List.lookup a l' := by
  intro l l'
  induction l with
  | nil => intro _; rfl
  | cons e es ih =>
    obtain ⟨k, v⟩ := e
    intro h
    rw [List.cons_append]
    cases hbeq : (a == k) with
    | false =>
      rw [lookup_cons_bne hbeq] at h
      rw [lookup_cons_bne hbeq]
      exact ih h
    | true =>
      rw [lookup_cons_beq hbeq] at h
      exact absurd h (by simp)

/-! Correctness of `find_reverse_dependencies` (claim C1): the function
returns exactly the nodes holding a direct edge to the target. -/

theorem revNbrs_acc_mono (t c : String) (vis : List String) :
    ∀ (ds stack acc : List String) (x : String),
      x ∈ acc → x ∈ (revNbrs t c vis ds stack acc).2 := by
  intro ds
  induction ds with
  | nil => intro stack acc x hx; exact hx
  | cons dep deps ih =>
    intro stack acc x hx
    rw [revNbrs]
    apply ih
    by_cases hdep : dep = t
    · simp only [hdep, if_pos rfl]
      by_cases hc : c ∈ acc
      · rw [if_pos hc]; exact hx
      · rw [if_neg hc]; exact List.mem_append_left _ hx
    · rw [if_neg hdep]; exact hx

theorem revNbrs_acc_sound (t c : String) (vis : List String) :
    ∀ (ds stack acc : List String) (x : String),
      x ∈ (revNbrs t c vis ds stack acc).2 →
      x ∈ acc ∨ (x = c ∧ t ∈ ds) := by
  intro ds
  induction ds with
  | nil => intro stack acc x hx; exact Or.inl hx
  | cons dep deps ih =>
    intro stack acc x hx
    rw [revNbrs] at hx
    rcases ih _ _ x hx with h | ⟨hxc, ht⟩
    · by_cases hdep : dep = t
      · simp only [hdep, if_pos rfl] at h
        by_cases hc : c ∈ acc
        · rw [if_pos hc] at h; exact Or.inl h
        · rw [if_neg hc] at h
          rcases List.mem_append.mp h with h' | h'
          · exact Or.inl h'
          · right
            refine ⟨List.mem_singleton.mp h', ?_⟩
            rw [hdep]; exact List.mem_cons_self _ _
      · rw [if_neg hdep] at h; exact Or.inl h
    · exact Or.inr ⟨hxc, List.mem_cons_of_mem _ ht⟩

theorem revNbrs_acc_current (t c : String) (vis : List String) :
    ∀ (ds stack acc : List String),
      (t ∈ ds ∨ c ∈ acc) → c ∈ (revNbrs t c vis ds stack acc).2 := by
  intro ds
  induction ds with
  | nil =>
    intro stack acc h
    rcases h with h | h
    · exact absurd h (List.not_mem_nil t)
    · exact h
  | cons dep deps ih =>
    intro stack acc h
    rw [revNbrs]
    apply ih
    rcases h with h | h
    · rcases List.mem_cons.mp h with h' | h'
      · right
        rw [← h', if_pos rfl]
        by_cases hc : c ∈ acc
        · rw [if_pos hc]; exact hc
        · rw [if_neg hc]; exact List.mem_append_right _ (List.mem_singleton_self c)
      · exact Or.inl h'
    · right
      by_cases hdep : dep = t
      · simp only [hdep, if_pos rfl]
        by_cases hc : c ∈ acc
        · rw [if_pos hc]; exact hc
        · rw [if_neg hc]; exact List.mem_append_left _ h
      · rw [if_neg hdep]; exact h

theorem revDfs_mono (g : Graph) (t : String) :
    ∀ (fuel : Nat) (stack vis acc : List String) (x : String),
      x ∈ acc → x ∈ revDfs g t fuel stack vis acc := by
  intro fuel
  induction fuel with
  | zero => intro stack vis acc x hx; exact hx
  | succ n ih =>
    intro stack vis acc x hx
    cases stack with
    | nil => rw [revDfs]; exact hx
    | cons current rest =>
      rw [revDfs]
      by_cases hc : current ∈ vis
      · rw [if_pos hc]; exact ih _ _ _ _ hx
      · rw [if_neg hc]
        exact ih _ _ _ _ (revNbrs_acc_mono _ _ _ _ _ _ _ hx)

theorem revDfs_sound (g : Graph) (t : String) :
    ∀ (fuel : Nat) (stack vis acc : List String),
      (∀ x ∈ acc, t ∈ depsOf g x) →
      ∀ x ∈ revDfs g t fuel stack vis acc, t ∈ depsOf g x := by
  intro fuel
  induction fuel with
  | zero => intro stack vis acc hacc x hx; exact hacc x hx
  | succ n ih =>
    intro stack vis acc hacc x hx
    cases stack with
    | nil => rw [revDfs] at hx; exact hacc x hx
    | cons current rest =>
      rw [revDfs] at hx
      by_cases hc : current ∈ vis
      · rw [if_pos hc] at hx; exact ih _ _ _ hacc x hx
      · rw [if_neg hc] at hx
        refine ih _ _ _ ?_ x hx
        intro y hy
        rcases revNbrs_acc_sound _ _ _ _ _ _ y hy with h | ⟨hyx, ht⟩
        · exact hacc y h
        · rw [hyx]; exact ht

theorem revDfs_start (g : Graph) (t p : String) (h : t ∈ depsOf g p) :
    ∀ (fuel : Nat) (acc : List String),
      p ∈ revDfs g t (fuel + 1) [p] [] acc := by
  intro fuel acc
  rw [revDfs]
  rw [if_neg (List.not_mem_nil p)]
  exact revDfs_mono g t _ _ _ _ _
    (revNbrs_acc_current t p _ _ _ _ (Or.inl h))

theorem frd_foldl_mono (g : Graph) (t : String) :
    ∀ (l : List (String × List String)) (acc : List String) (x : String),
      x ∈ acc →
      x ∈ l.foldl (fun acc e => revDfs g t (dfsFuel g) [e.1] [] acc) acc := by
  intro l
  induction l with
  | nil => intro acc x hx; exact hx
  | cons e es ih =>
    intro acc x hx
    rw [List.foldl_cons]
    exact ih _ x (revDfs_mono g t _ _ _ _ x hx)

theorem frd_foldl_sound (g : Graph) (t : String) :
    ∀ (l : List (String × List String)) (acc : List String),
      (∀ x ∈ acc, t ∈ depsOf g x) →
      ∀ x ∈ l.foldl (fun acc e => revDfs g t (dfsFuel g) [e.1] [] acc) acc,
        t ∈ depsOf g x := by
  intro l
  induction l with
  | nil => intro acc hacc x hx; exact hacc x hx
  | cons e es ih =>
    intro acc hacc x hx
    rw [List.foldl_cons] at hx
    exact ih _ (revDfs_sound g t _ _ _ _ hacc) x hx

theorem frd_foldl_complete (g : Graph) (t p : String)
    (hp : t ∈ depsOf g p) :
    ∀ (l : List (String × List String)) (acc : List String) (ds : List String),
      (p, ds) ∈ l →
      p ∈ l.foldl (fun acc e => revDfs g t (dfsFuel g) [e.1] [] acc) acc := by
  intro l
  induction l with
  | nil => intro acc ds h; exact absurd h (List.not_mem_nil _)
  | cons e es ih =>
    intro acc ds h
    rw [List.foldl_cons]
    rcases List.mem_cons.mp h with h' | h'
    · apply frd_foldl_mono
      have he : e.1 = p := by rw [← h']
      rw [he]
      have hfuel : dfsFuel g = graphTotalDeps g + 1 := rfl
      rw [hfuel]
      exact revDfs_start g t p hp _ _
    · exact ih _ ds h'

/-- C1, amended.  A package is returned by `find_reverse_dependencies`
exactly when the target is one of its direct declared dependencies: the
function collects the immediate parents of the target (each node with an
outgoing edge is a graph key and is therefore processed first in its own
traversal; conversely only nodes observed holding a direct edge to the
target are ever recorded). -/
theorem find_reverse_dependencies_direct_parents (g : Graph) (t p : String) :
    p ∈ find_reverse_dependencies g t ↔ t ∈ depsOf g p := by
  constructor
  · intro h
    exact frd_foldl_sound g t g [] (by intro x hx; simp at hx) p h
  · intro h
    have hk : ∃ ds, (p, ds) ∈ g := by
      unfold depsOf at h
      cases hl : List.lookup p g with
      | none => rw [hl] at h; simp at h
      | some ds => exact ⟨ds, lookup_mem hl⟩
    rcases hk with ⟨ds, hds⟩
    exact frd_foldl_complete g t p h g [] ds hds

/-! Well-formedness of every cycle returned by `detect_cycles`
(claim C10). -/

/-- Invariant of a cycle-detection stack entry `(current, path)`: the
path is a nonempty duplicate-free walk along graph edges ending at the
current node. -/
def pathOK (g : Graph) (current : String) (path : List String) : Prop :=
  path ≠ [] ∧ path.getLast? = some current ∧ path.Nodup ∧
    List.Chain' (edgeRel g) path

/-- A well-formed simple cycle: length at least two, equal endpoints,
pairwise-distinct nodes apart from the repeated endpoint, every
consecutive pair an edge. -/
def wfCycle (g : Graph) (c : List String) : Prop :=
  2 ≤ c.length ∧ c.head? = c.getLast? ∧ c.dropLast.Nodup ∧
    List.Chain' (edgeRel g) c

theorem chain'_drop_of_chain' (R : String → String → Prop)
    (l : List String) (n : Nat) (h : List.Chain' R l) :
    List.Chain' R (l.drop n) := by
  have h' := h
  rw [← List.take_append_drop n l] at h'
  exact (List.chain'_append.mp h').2.1

theorem getLast?_drop_of_ne_nil (l : List String) (n : Nat)
    (h : l.drop n ≠ []) : (l.drop n).getLast? = l.getLast? := by
  conv_rhs => rw [← List.take_append_drop n l]
  rw [List.getLast?_append_of_ne_nil _ h]

theorem cycleFrom_wf (g : Graph) (path : List String) (current nb : String)
    (hne : path ≠ []) (hlast : path.getLast? = some current)
    (hnd : path.Nodup) (hch : List.Chain' (edgeRel g) path)
    (hmem : nb ∈ path) (hedge : edgeRel g current nb) :
    wfCycle g (cycleFrom path nb) := by
  have hi : path.indexOf nb < path.length := List.indexOf_lt_length.mpr hmem
  have hlen : (path.drop (path.indexOf nb)).length = path.length - path.indexOf nb :=
    List.length_drop _ _
  have hpos : 0 < (path.drop (path.indexOf nb)).length := by omega
  have hdropne : path.drop (path.indexOf nb) ≠ [] := List.ne_nil_of_length_pos hpos
  have hget : path.get ⟨path.indexOf nb, hi⟩ = nb := List.indexOf_get _
  have hhead : (path.drop (path.indexOf nb)).head? = some nb := by
    rw [List.drop_eq_getElem_cons hi, List.head?_cons]
    exact congrArg some hget
  refine ⟨?_, ?_, ?_, ?_⟩
  · unfold cycleFrom
    rw [List.length_append, List.length_singleton]
    omega
  · unfold cycleFrom
    rw [List.getLast?_concat, List.head?_append, hhead]
    rfl
  · unfold cycleFrom
    rw [List.dropLast_concat]
    exact (List.drop_sublist _ _).nodup hnd
  · unfold cycleFrom
    refine List.chain'_append.mpr ⟨chain'_drop_of_chain' _ _ _ hch,
      List.chain'_singleton nb, ?_⟩
    intro x hx y hy
    rw [getLast?_drop_of_ne_nil _ _ hdropne, hlast] at hx
    rw [List.head?_cons] at hy
    have hx' : current = x := by simpa using hx
    have hy' : nb = y := by simpa using hy
    rw [← hx', ← hy']
    exact hedge

theorem cycleNbrs_cycles_sound (path vis : List String) :
    ∀ (nbs : List String) (stack : List (String × List String))
      (cycles : List (List String)) (c : List String),
      c ∈ (cycleNbrs path vis nbs stack cycles).2 →
      c ∈ cycles ∨ ∃ nb, nb ∈ nbs ∧ nb ∈ path ∧ c = cycleFrom path nb := by
  intro nbs
  induction nbs with
  | nil => intro stack cycles c hc; exact Or.inl hc
  | cons nb nbs ih =>
    intro stack cycles c hc
    rw [cycleNbrs] at hc
    by_cases hp : nb ∈ path
    · rw [if_pos hp] at hc
      rcases ih _ _ c hc with h | ⟨nb', h1, h2, h3⟩
      · by_cases hd : cycleFrom path nb ∈ cycles
        · rw [if_pos hd] at h; exact Or.inl h
        · rw [if_neg hd] at h
          rcases List.mem_append.mp h with h' | h'
          · exact Or.inl h'
          · exact Or.inr ⟨nb, List.mem_cons_self _ _, hp, List.mem_singleton.mp h'⟩
      · exact Or.inr ⟨nb', List.mem_cons_of_mem _ h1, h2, h3⟩
    · rw [if_neg hp] at hc
      by_cases hv : nb ∈ vis
      · rw [if_pos hv] at hc
        rcases ih _ _ c hc with h | ⟨nb', h1, h2, h3⟩
        · exact Or.inl h
        · exact Or.inr ⟨nb', List.mem_cons_of_mem _ h1, h2, h3⟩
      · rw [if_neg hv] at hc
        rcases ih _ _ c hc with h | ⟨nb', h1, h2, h3⟩
        · exact Or.inl h
        · exact Or.inr ⟨nb', List.mem_cons_of_mem _ h1, h2, h3⟩

theorem cycleNbrs_stack_sound (path vis : List String) :
    ∀ (nbs : List String) (stack : List (String × List String))
      (cycles : List (List String)) (e : String × List String),
      e ∈ (cycleNbrs path vis nbs stack cycles).1 →
      e ∈ stack ∨ ∃ nb, nb ∈ nbs ∧ nb ∉ path ∧ e = (nb, path ++ [nb]) := by
  intro nbs
  induction nbs with
  | nil => intro stack cycles e he; exact Or.inl he
  | cons nb nbs ih =>
    intro stack cycles e he
    rw [cycleNbrs] at he
    by_cases hp : nb ∈ path
    · rw [if_pos hp] at he
      rcases ih _ _ e he with h | ⟨nb', h1, h2, h3⟩
      · exact Or.inl h
      · exact Or.inr ⟨nb', List.mem_cons_of_mem _ h1, h2, h3⟩
    · rw [if_neg hp] at he
      by_cases hv : nb ∈ vis
      · rw [if_pos hv] at he
        rcases ih _ _ e he with h | ⟨nb', h1, h2, h3⟩
        · exact Or.inl h
        · exact Or.inr ⟨nb', List.mem_cons_of_mem _ h1, h2, h3⟩
      · rw [if_neg hv] at he
        rcases ih _ _ e he with h | ⟨nb', h1, h2, h3⟩
        · rcases List.mem_cons.mp h with h' | h'
          · exact Or.inr ⟨nb, List.mem_cons_self _ _, hp, h'⟩
          · exact Or.inl h'
        · exact Or.inr ⟨nb', List.mem_cons_of_mem _ h1, h2, h3⟩

theorem cycleDfs_wf (g : Graph) :
    ∀ (fuel : Nat) (stack : List (String × List String))
      (visited : List String) (cycles : List (List String)),
      (∀ e ∈ stack, pathOK g e.1 e.2) →
      (∀ c ∈ cycles, wfCycle g c) →
      ∀ c ∈ cycleDfs g fuel stack visited cycles, wfCycle g c := by
  intro fuel
  induction fuel with
  | zero => intro stack visited cycles _ hcy c hc; exact hcy c hc
  | succ n ih =>
    intro stack visited cycles hst hcy c hc
    cases stack with
    | nil => rw [cycleDfs] at hc; exact hcy c hc
    | cons e rest =>
      obtain ⟨current, path⟩ := e
      rw [cycleDfs] at hc
      by_cases hv : current ∈ visited
      · rw [if_pos hv] at hc
        exact ih _ _ _ (fun e he => hst e (List.mem_cons_of_mem _ he)) hcy c hc
      · rw [if_neg hv] at hc
        have hpok : pathOK g current path := hst _ (List.mem_cons_self _ _)
        obtain ⟨hne, hlast, hnd, hch⟩ := hpok
        refine ih _ _ _ ?_ ?_ c hc
        · intro e he
          rcases cycleNbrs_stack_sound _ _ _ _ _ e he with h | ⟨nb, h1, h2, h3⟩
          · exact hst e (List.mem_cons_of_mem _ h)
          · rw [h3]
            refine ⟨by simp, List.getLast?_concat _, ?_, ?_⟩
            · simp [List.nodup_append, hnd, h2]
            · refine List.chain'_append.mpr ⟨hch, List.chain'_singleton nb, ?_⟩
              intro x hx y hy
              rw [hlast] at hx
              rw [List.head?_cons] at hy
              have hx' : current = x := by simpa using hx
              have hy' : nb = y := by simpa using hy
              rw [← hx', ← hy']
              exact h1
        · intro c' hc'
          rcases cycleNbrs_cycles_sound _ _ _ _ _ c' hc' with h | ⟨nb, h1, h2, h3⟩
          · exact hcy c' h
          · rw [h3]
            exact cycleFrom_wf g path current nb hne hlast hnd hch h2 h1

theorem detect_cycles_foldl_wf (g : Graph) :
    ∀ (l : List (String × List String)) (cycles : List (List String)),
      (∀ c ∈ cycles, wfCycle g c) →
      ∀ c ∈ l.foldl (fun cycles e => cycleDfs g (dfsFuel g) [(e.1, [e.1])] [] cycles)
        cycles, wfCycle g c := by
  intro l
  induction l with
  | nil => intro cycles hcy c hc; exact hcy c hc
  | cons e es ih =>
    intro cycles hcy c hc
    rw [List.foldl_cons] at hc
    refine ih _ ?_ c hc
    refine cycleDfs_wf g _ _ _ _ ?_ hcy
    intro e' he'
    have : e' = (e.1, [e.1]) := List.mem_singleton.mp he'
    rw [this]
    exact ⟨by simp, rfl, List.nodup_singleton _, List.chain'_singleton _⟩

/-- C10.  Every sequence returned by `detect_cycles` is a well-formed
simple cycle of the graph: length at least two, first element equal to
the last, interior nodes pairwise distinct (the list without its closing
repetition has no duplicates), and every consecutive pair is a graph
edge. -/
theorem detect_cycles_wellformed (g : Graph) (c : List String)
    (hc : c ∈ detect_cycles g) :
    2 ≤ c.length ∧ c.head? = c.getLast? ∧ c.dropLast.Nodup ∧
      List.Chain' (edgeRel g) c :=
  detect_cycles_foldl_wf g g [] (by intro c' hc'; simp at hc') c hc

/-- C10, witness at a concrete input. -/
theorem detect_cycles_wellformed_witness :
    (["A", "B", "C", "A"] ∈ detect_cycles gCyc) ∧
    (2 ≤ (["A", "B", "C", "A"] : List String).length ∧
     (["A", "B", "C", "A"] : List String).head? =
       (["A", "B", "C", "A"] : List String).getLast? ∧
     (["A", "B", "C", "A"] : List String).dropLast.Nodup ∧
     List.Chain' (edgeRel gCyc) ["A", "B", "C", "A"]) :=
  ⟨by decide, detect_cycles_wellformed gCyc ["A", "B", "C", "A"] (by decide)⟩

/-! Builder invariants: the visited-set discipline (claim C4). -/

/-- The key a fetch call `(name, version)` corresponds to. -/
def keyOfPair (pr : String × String) : String := pr.1 ++ "@" ++ pr.2

/-- Invariant of the builder loop: fetch calls correspond one-to-one (in
order) with visited keys, the graph records exactly the visited keys in
order, visited keys are pairwise distinct, and every failed key maps to
an empty dependency list in the graph. -/
def GoodState (st : BuildState) : Prop :=
  st.fetchLog.map keyOfPair = st.visited ∧
  st.dependency_graph.map Prod.fst = st.visited ∧
  st.visited.Nodup ∧
  ∀ k ∈ st.failedKeys, List.lookup k st.dependency_graph = some []

theorem processDeps_fields (sv : SemverOracle) (reg : Registry) :
    ∀ (ds : List (String × String)) (st : BuildState),
      (processDeps sv reg ds st).2.visited = st.visited ∧
      (processDeps sv reg ds st).2.fetchLog = st.fetchLog ∧
      (processDeps sv reg ds st).2.dependency_graph = st.dependency_graph ∧
      (processDeps sv reg ds st).2.failedKeys = st.failedKeys ∧
      (processDeps sv reg ds st).2.iterations = st.iterations ∧
      (processDeps sv reg ds st).2.stack.length ≤ st.stack.length + ds.length := by
  intro ds
  induction ds with
  | nil =>
    intro st
    exact ⟨rfl, rfl, rfl, rfl, rfl, by simp [processDeps]⟩
  | cons d ds ih =>
    intro st
    obtain ⟨dn, dv⟩ := d
    obtain ⟨s1, s2, s3, s4, s5, s6, s7, s8, s9⟩ := st
    simp only [processDeps]
    by_cases hr : hasRangeChar dv
    · rw [if_pos hr]
      dsimp only
      split
      · obtain ⟨h1, h2, h3, h4, h5, h6⟩ := ih _
        exact ⟨h1, h2, h3, h4, h5, by simp only [List.length_cons] at h6 ⊢; omega⟩
      · obtain ⟨h1, h2, h3, h4, h5, h6⟩ := ih _
        exact ⟨h1, h2, h3, h4, h5, by simp only [List.length_cons] at h6 ⊢; omega⟩
    · rw [if_neg hr]
      dsimp only
      split
      · obtain ⟨h1, h2, h3, h4, h5, h6⟩ := ih _
        exact ⟨h1, h2, h3, h4, h5, by simp only [List.length_cons] at h6 ⊢; omega⟩
      · obtain ⟨h1, h2, h3, h4, h5, h6⟩ := ih _
        exact ⟨h1, h2, h3, h4, h5, by simp only [List.length_cons] at h6 ⊢; omega⟩

theorem buildLoop_good (sv : SemverOracle) (reg : Registry) :
    ∀ (fuel : Nat) (st : BuildState),
      GoodState st → GoodState (buildLoop sv reg fuel st) := by
  intro fuel
  induction fuel with
  | zero => intro st h; exact h
  | succ n ih =>
    intro st h
    obtain ⟨s1, s2, s3, s4, s5, s6, s7, s8, s9⟩ := st
    obtain ⟨h1, h2, h3, h4⟩ := h
    simp only at h1 h2 h3 h4
    cases s1 with
    | nil => exact ⟨h1, h2, h3, h4⟩
    | cons top rest =>
      obtain ⟨package, version0⟩ := top
      rw [buildLoop]
      simp only []
      by_cases hkey :
          package ++ "@" ++ (resolveNodeVersion sv reg package version0).1 ∈ s2
      · rw [if_pos hkey]
        exact ih _ ⟨h1, h2, h3, h4⟩
      · rw [if_neg hkey]
        set version := (resolveNodeVersion sv reg package version0).1 with hver
        set key := package ++ "@" ++ version with hk
        cases hfetch : get_npm_package_info reg package version with
        | error msg =>
          refine ih _ ⟨?_, ?_, ?_, ?_⟩
          · simp only []
            rw [List.map_append, h1]
            rfl
          · simp only []
            rw [List.map_append, h2]
            rfl
          · simp only []
            simp [List.nodup_append, h3, hkey]
          · simp only []
            intro k hk'
            rcases List.mem_append.mp hk' with hk1 | hk1
            · exact lookup_append_left (h4 k hk1)
            · have hkeq : k = key := List.mem_singleton.mp hk1
              rw [hkeq]
              have hnone : List.lookup key s3 = none := by
                apply lookup_eq_none_of_not_mem_keys
                rw [h2]
                exact hkey
              rw [lookup_append_of_none hnone]
              exact lookup_cons_beq (by simp)
        | ok deps =>
          obtain ⟨p1, p2, p3, p4, p5, p6⟩ := processDeps_fields sv reg deps
            ⟨rest, s2 ++ [key], s3, s4, s5 ++ [(package, version)],
             s6 + (resolveNodeVersion sv reg package version0).2, s7, s8, s9 + 1⟩
          refine ih _ ⟨?_, ?_, ?_, ?_⟩
          · simp only []
            rw [p2, p1]
            simp only []
            rw [List.map_append, h1]
            rfl
          · simp only []
            rw [List.map_append, p3, p1]
            simp only []
            rw [h2]
            rfl
          · simp only []
            rw [p1]
            simp only []
            simp [List.nodup_append, h3, hkey]
          · simp only []
            rw [p4, p3]
            simp only []
            intro k hk'
            have hnotin : key ∉ s3.map Prod.fst := by rw [h2]; exact hkey
            exact lookup_append_left (h4 k hk')

/-- C4.  A build never issues two package-info fetches for the same
`(name, concreteVersion)` pair: the fetch log is duplicate-free and its
length equals the number of distinct visited package keys. -/
theorem build_no_duplicate_fetches (sv : SemverOracle) (reg : Registry)
    (start_package start_version : String) :
    (build_graph_from_npm sv reg start_package start_version).fetchLog.Nodup ∧
    (build_graph_from_npm sv reg start_package start_version).fetchLog.length =
      (build_graph_from_npm sv reg start_package start_version).visited.length ∧
    (build_graph_from_npm sv reg start_package start_version).visited.Nodup := by
  have h := buildLoop_good sv reg (buildFuel reg)
    (initBuildState start_package start_version)
    ⟨rfl, rfl, List.nodup_nil, by intro k hk; simp [initBuildState] at hk⟩
  obtain ⟨h1, h2, h3, h4⟩ := h
  unfold build_graph_from_npm
  refine ⟨?_, ?_, h3⟩
  · have hm : ((buildLoop sv reg (buildFuel reg)
        (initBuildState start_package start_version)).fetchLog.map
          keyOfPair).Nodup := by
      rw [h1]
      exact h3
    exact List.Nodup.of_map _ hm
  · rw [← h1, List.length_map]

/-! Termination of the builder loop (claim C5): the potential
`stack length + weight of unvisited registry entries` strictly
decreases at every iteration. -/

/-- Weight contributed by the published versions of one package name:
each version whose key is not yet visited contributes its declared
dependency count. -/
def potVersions (name : String) (visited : List String)
    (vs : List (String × List (String × String))) : Nat :=
  (vs.map (fun vd => if (name ++ "@" ++ vd.1) ∈ visited then 0 else vd.2.length)).sum

/-- Total weight of the not-yet-visited registry entries. -/
def potList (visited : List String) (l : List (String × PkgMeta)) : Nat :=
  (l.map (fun nm => potVersions nm.1 visited nm.2.versions)).sum

theorem potVersions_mono (name : String) {visited visited' : List String}
    (hsub : ∀ x ∈ visited, x ∈ visited') :
    ∀ vs, potVersions name visited' vs ≤ potVersions name visited vs := by
  intro vs
  induction vs with
  | nil => exact Nat.le_refl _
  | cons vd vs ih =>
    unfold potVersions at ih ⊢
    rw [List.map_cons, List.sum_cons, List.map_cons, List.sum_cons]
    have hhd : (if (name ++ "@" ++ vd.1) ∈ visited' then 0 else vd.2.length) ≤
        (if (name ++ "@" ++ vd.1) ∈ visited then 0 else vd.2.length) := by
      by_cases hm : (name ++ "@" ++ vd.1) ∈ visited
      · rw [if_pos hm, if_pos (hsub _ hm)]
      · rw [if_neg hm]
        split <;> omega
    omega

theorem potList_mono {visited visited' : List String}
    (hsub : ∀ x ∈ visited, x ∈ visited') :
    ∀ l, potList visited' l ≤ potList visited l := by
  intro l
  induction l with
  | nil => exact Nat.le_refl _
  | cons nm l ih =>
    unfold potList at ih ⊢
    rw [List.map_cons, List.sum_cons, List.map_cons, List.sum_cons]
    have := potVersions_mono nm.1 hsub nm.2.versions
    omega

theorem potVersions_drop (name ver : String) (ds : List (String × String))
    {visited : List String} (hnv : (name ++ "@" ++ ver) ∉ visited) :
    ∀ vs, (ver, ds) ∈ vs →
      potVersions name (visited ++ [name ++ "@" ++ ver]) vs + ds.length ≤
        potVersions name visited vs := by
  intro vs
  induction vs with
  | nil => intro h; exact absurd h (List.not_mem_nil _)
  | cons vd vs ih =>
    intro h
    unfold potVersions at ih ⊢
    rw [List.map_cons, List.sum_cons, List.map_cons, List.sum_cons]
    rcases List.mem_cons.mp h with h' | h'
    · rw [← h']
      dsimp only
      rw [if_neg hnv, if_pos (by exact List.mem_append_right _ (List.mem_singleton_self _))]
      have := @potVersions_mono name visited (visited ++ [name ++ "@" ++ ver])
        (fun x hx => List.mem_append_left _ hx) vs
      unfold potVersions at this
      omega
    · have hhd : (if (name ++ "@" ++ vd.1) ∈ visited ++ [name ++ "@" ++ ver] then 0
          else vd.2.length) ≤
          (if (name ++ "@" ++ vd.1) ∈ visited then 0 else vd.2.length) := by
        by_cases hm : (name ++ "@" ++ vd.1) ∈ visited
        · rw [if_pos hm, if_pos (List.mem_append_left _ hm)]
        · rw [if_neg hm]
          split <;> omega
      have := ih h'
      omega

theorem potList_drop (name ver : String) (meta : PkgMeta)
    (ds : List (String × String)) {visited : List String}
    (hnv : (name ++ "@" ++ ver) ∉ visited)
    (hver : (ver, ds) ∈ meta.versions) :
    ∀ l, (name, meta) ∈ l →
      potList (visited ++ [name ++ "@" ++ ver]) l + ds.length ≤
        potList visited l := by
  intro l
  induction l with
  | nil => intro h; exact absurd h (List.not_mem_nil _)
  | cons nm l ih =>
    intro h
    unfold potList at ih ⊢
    rw [List.map_cons, List.sum_cons, List.map_cons, List.sum_cons]
    rcases List.mem_cons.mp h with h' | h'
    · rw [← h']
      dsimp only
      have hhd := potVersions_drop name ver ds hnv meta.versions hver
      have htl := @potList_mono visited (visited ++ [name ++ "@" ++ ver])
        (fun x hx => List.mem_append_left _ hx) l
      unfold potList at htl
      omega
    · have hhd := @potVersions_mono nm.1 visited (visited ++ [name ++ "@" ++ ver])
        (fun x hx => List.mem_append_left _ hx) nm.2.versions
      have := ih h'
      omega

theorem get_ok_mem (reg : Registry) (p v : String)
    (deps : List (String × String))
    (h : get_npm_package_info reg p v = .ok deps) :
    ∃ meta, (p, meta) ∈ reg.pkgs ∧ (v, deps) ∈ meta.versions := by
  unfold get_npm_package_info at h
  cases h1 : List.lookup p reg.pkgs with
  | none => rw [h1] at h; simp at h
  | some meta =>
    rw [h1] at h
    simp only [] at h
    cases h2 : List.lookup v meta.versions with
    | none => rw [h2] at h; simp at h
    | some info =>
      rw [h2] at h
      simp only [] at h
      have hinfo : info = deps := by injection h
      exact ⟨meta, lookup_mem h1, hinfo ▸ lookup_mem h2⟩

theorem buildLoop_stack_empty (sv : SemverOracle) (reg : Registry) :
    ∀ (fuel : Nat) (st : BuildState),
      st.stack.length + potList st.visited reg.pkgs ≤ fuel →
      (buildLoop sv reg fuel st).stack = [] := by
  intro fuel
  induction fuel with
  | zero =>
    intro st hf
    have hz : st.stack.length = 0 := by omega
    have : st.stack = [] := List.eq_nil_of_length_eq_zero hz
    exact this
  | succ n ih =>
    intro st hf
    obtain ⟨s1, s2, s3, s4, s5, s6, s7, s8, s9⟩ := st
    simp only [List.length_cons] at hf
    cases s1 with
    | nil => rfl
    | cons top rest =>
      obtain ⟨package, version0⟩ := top
      rw [buildLoop]
      simp only []
      simp only [List.length_cons] at hf
      by_cases hkey :
          package ++ "@" ++ (resolveNodeVersion sv reg package version0).1 ∈ s2
      · rw [if_pos hkey]
        apply ih
        simp only []
        omega
      · rw [if_neg hkey]
        cases hfetch : get_npm_package_info reg package
            (resolveNodeVersion sv reg package version0).1 with
        | error msg =>
          apply ih
          simp only []
          have hmono := @potList_mono s2
            (s2 ++ [package ++ "@" ++ (resolveNodeVersion sv reg package version0).1])
            (fun x hx => List.mem_append_left _ hx) reg.pkgs
          omega
        | ok deps =>
          apply ih
          obtain ⟨meta, hm1, hm2⟩ := get_ok_mem reg package _ deps hfetch
          have hdrop := potList_drop package
            (resolveNodeVersion sv reg package version0).1 meta deps hkey hm2
            reg.pkgs hm1
          obtain ⟨p1, p2, p3, p4, p5, p6⟩ := processDeps_fields sv reg deps
            ⟨rest,
             s2 ++ [package ++ "@" ++ (resolveNodeVersion sv reg package version0).1],
             s3, s4,
             s5 ++ [(package, (resolveNodeVersion sv reg package version0).1)],
             s6 + (resolveNodeVersion sv reg package version0).2, s7, s8, s9 + 1⟩
          simp only [] at p1 p6 ⊢
          rw [p1]
          omega

theorem buildLoop_iterations (sv : SemverOracle) (reg : Registry) :
    ∀ (fuel : Nat) (st : BuildState),
      (buildLoop sv reg fuel st).iterations ≤ st.iterations + fuel := by
  intro fuel
  induction fuel with
  | zero => intro st; exact Nat.le_refl _
  | succ n ih =>
    intro st
    obtain ⟨s1, s2, s3, s4, s5, s6, s7, s8, s9⟩ := st
    cases s1 with
    | nil =>
      show s9 ≤ s9 + (n + 1)
      omega
    | cons top rest =>
      obtain ⟨package, version0⟩ := top
      rw [buildLoop]
      simp only []
      by_cases hkey :
          package ++ "@" ++ (resolveNodeVersion sv reg package version0).1 ∈ s2
      · rw [if_pos hkey]
        have := ih ⟨rest, s2, s3, s4, s5,
          s6 + (resolveNodeVersion sv reg package version0).2, s7, s8, s9 + 1⟩
        simp only [] at this
        omega
      · rw [if_neg hkey]
        cases hfetch : get_npm_package_info reg package
            (resolveNodeVersion sv reg package version0).1 with
        | error msg =>
          simp only []
          have := ih ⟨rest,
            s2 ++ [package ++ "@" ++ (resolveNodeVersion sv reg package version0).1],
            s3 ++ [(package ++ "@" ++ (resolveNodeVersion sv reg package version0).1, [])],
            s4,
            s5 ++ [(package, (resolveNodeVersion sv reg package version0).1)],
            s6 + (resolveNodeVersion sv reg package version0).2,
            s7 ++ [package ++ "@" ++ (resolveNodeVersion sv reg package version0).1],
            s8, s9 + 1⟩
          simp only [] at this
          omega
        | ok deps =>
          simp only []
          obtain ⟨p1, p2, p3, p4, p5, p6⟩ := processDeps_fields sv reg deps
            ⟨rest,
             s2 ++ [package ++ "@" ++ (resolveNodeVersion sv reg package version0).1],
             s3, s4,
             s5 ++ [(package, (resolveNodeVersion sv reg package version0).1)],
             s6 + (resolveNodeVersion sv reg package version0).2, s7, s8, s9 + 1⟩
          have hit := ih { (processDeps sv reg deps
            ⟨rest,
             s2 ++ [package ++ "@" ++ (resolveNodeVersion sv reg package version0).1],
             s3, s4,
             s5 ++ [(package, (resolveNodeVersion sv reg package version0).1)],
             s6 + (resolveNodeVersion sv reg package version0).2, s7, s8, s9 + 1⟩).2 with
            dependency_graph := (processDeps sv reg deps
            ⟨rest,
             s2 ++ [package ++ "@" ++ (resolveNodeVersion sv reg package version0).1],
             s3, s4,
             s5 ++ [(package, (resolveNodeVersion sv reg package version0).1)],
             s6 + (resolveNodeVersion sv reg package version0).2, s7, s8,
             s9 + 1⟩).2.dependency_graph ++
              [(package ++ "@" ++ (resolveNodeVersion sv reg package version0).1,
                (processDeps sv reg deps
            ⟨rest,
             s2 ++ [package ++ "@" ++ (resolveNodeVersion sv reg package version0).1],
             s3, s4,
             s5 ++ [(package, (resolveNodeVersion sv reg package version0).1)],
             s6 + (resolveNodeVersion sv reg package version0).2, s7, s8,
             s9 + 1⟩).1)] }
          simp only [] at hit p5
          omega

theorem potList_empty_visited (reg : Registry) :
    potList [] reg.pkgs = registryTotalDeps reg := by
  simp [potList, potVersions, registryTotalDeps]

/-- C5, amended.  For every finite registry — cyclic registries
included — the build's work stack empties (the `while` loop runs to
completion) and the number of loop iterations is at most the registry's
total declared dependency count plus two. -/
theorem build_terminates_bounded (sv : SemverOracle) (reg : Registry)
    (start_package start_version : String) :
    (build_graph_from_npm sv reg start_package start_version).stack = [] ∧
    (build_graph_from_npm sv reg start_package start_version).iterations ≤
      registryTotalDeps reg + 2 := by
  constructor
  · apply buildLoop_stack_empty
    show 1 + potList [] reg.pkgs ≤ buildFuel reg
    rw [potList_empty_visited]
    unfold buildFuel
    omega
  · have h := buildLoop_iterations sv reg (buildFuel reg)
      (initBuildState start_package start_version)
    have h0 : (initBuildState start_package start_version).iterations = 0 := rfl
    have hb : buildFuel reg = registryTotalDeps reg + 2 := rfl
    rw [h0] at h
    unfold build_graph_from_npm
    omega

/-! A family of registries on which the builder's iteration count is not
bounded by any function of the number of distinct visited keys (claim
C5): the root declares `d` dependencies with pairwise distinct names
that all concatenate to the same package key, because the names and
version strings contain the `@` separator (as npm scoped package names
do).  All `d` entries are pushed, yet only two distinct keys are ever
visited. -/

/-- A run of `n` at-sign characters. -/
def atRep (n : Nat) : List Char := List.replicate n '@'

/-- Dependency name number `i` of the family: `a` followed by `i`
at-signs. -/
def famName (i : Nat) : String := String.mk ('a' :: atRep i)

/-- Version specifier paired with `famName i` so that
`famName i ++ "@" ++ famVer d i` is the same string for every `i < d`. -/
def famVer (d i : Nat) : String := String.mk (atRep (d - 1 - i) ++ ['b'])

/-- The `d` dependency declarations of the family root. -/
def famDeps (d : Nat) : List (String × String) :=
  (List.range d).map (fun i => (famName i, famVer d i))

/-- The single dependency key all `d` declarations map to. -/
def famKey (d : Nat) : String := String.mk ('a' :: (atRep d ++ ['b']))

/-- The family registry: one package `r` at version `1` declaring
`famDeps d`. -/
def famReg (d : Nat) : Registry := ⟨[("r", ⟨none, [("1", famDeps d)]⟩)]⟩

theorem atRep_join (i j : Nat) :
    atRep i ++ '@' :: (atRep j ++ ['b']) = atRep (i + j + 1) ++ ['b'] := by
  have h1 : '@' :: (atRep j ++ ['b']) = atRep (j + 1) ++ ['b'] := by
    unfold atRep
    rw [List.replicate_succ, List.cons_append]
  rw [h1, ← List.append_assoc]
  unfold atRep
  rw [← List.replicate_add]
  have h2 : i + (j + 1) = i + j + 1 := by omega
  rw [h2]

theorem famKey_eq (d i : Nat) (h : i < d) :
    famName i ++ "@" ++ famVer d i = famKey d := by
  unfold famName famVer famKey
  have h1 : (String.mk ('a' :: atRep i) ++ "@") = String.mk ('a' :: atRep i ++ ['@']) := rfl
  rw [h1]
  have h2 : (String.mk ('a' :: atRep i ++ ['@']) ++ String.mk (atRep (d - 1 - i) ++ ['b'])) =
      String.mk (('a' :: atRep i ++ ['@']) ++ (atRep (d - 1 - i) ++ ['b'])) := rfl
  rw [h2]
  congr 1
  rw [List.cons_append, List.cons_append, List.append_assoc]
  have h3 : ['@'] ++ (atRep (d - 1 - i) ++ ['b']) = '@' :: (atRep (d - 1 - i) ++ ['b']) := rfl
  rw [h3, atRep_join]
  have h4 : i + (d - 1 - i) + 1 = d := by omega
  rw [h4]

theorem hasRangeChar_eq_false_of (s : String)
    (h : ∀ c ∈ s.data, c = '@' ∨ c = 'b') : hasRangeChar s = false := by
  unfold hasRangeChar rangeChars
  apply List.any_eq_false.mpr
  intro c hc
  have hc' : c = '^' ∨ c = '~' ∨ c = '>' ∨ c = '<' ∨ c = '|' := by
    simpa using hc
  unfold strHasChar
  rw [Bool.not_eq_true]
  apply List.any_eq_false.mpr
  intro x hx
  rw [Bool.not_eq_true]
  rcases h x hx with h' | h' <;> rw [h'] <;>
    rcases hc' with h2 | h2 | h2 | h2 | h2 <;> rw [h2] <;> decide

theorem famVer_no_range (d i : Nat) : hasRangeChar (famVer d i) = false := by
  apply hasRangeChar_eq_false_of
  intro c hc
  unfold famVer at hc
  have hc' : c ∈ atRep (d - 1 - i) ++ ['b'] := hc
  rcases List.mem_append.mp hc' with h | h
  · exact Or.inl (List.eq_of_mem_replicate h)
  · exact Or.inr (List.mem_singleton.mp h)

theorem famName_ne_r (i : Nat) : (famName i == "r") = false := by
  rw [beq_eq_false_iff_ne]
  intro h
  have hd := congrArg String.data h
  have hr : ("r" : String).data = ['r'] := rfl
  rw [hr] at hd
  unfold famName at hd
  have hd' : 'a' :: atRep i = ['r'] := hd
  injection hd' with h1 h2
  exact absurd h1 (by decide)

theorem famKey_ne_rkey (d : Nat) : famKey d ≠ "r" ++ "@" ++ "1" := by
  intro h
  have hd := congrArg String.data h
  have hr : ("r" ++ "@" ++ "1" : String).data = ['r', '@', '1'] := rfl
  rw [hr] at hd
  unfold famKey at hd
  have hd' : 'a' :: (atRep d ++ ['b']) = ['r', '@', '1'] := hd
  injection hd' with h1 h2
  exact absurd h1 (by decide)

theorem buildLoop_empty_stack (sv : SemverOracle) (reg : Registry)
    (fuel : Nat) (st : BuildState) (h : st.stack = []) :
    buildLoop sv reg fuel st = st := by
  cases fuel with
  | zero => rfl
  | succ n => rw [buildLoop, h]

theorem processDeps_all_pushed (sv : SemverOracle) (reg : Registry) :
    ∀ (ds : List (String × String)) (st : BuildState),
      st.rdv = none →
      (∀ pr ∈ ds, hasRangeChar pr.2 = false ∧ (pr.1 ++ "@" ++ pr.2) ∉ st.visited) →
      processDeps sv reg ds st =
        (ds.map keyOfPair,
         { st with stack := ds.reverse ++ st.stack, pushLog := st.pushLog ++ ds }) := by
  intro ds
  induction ds with
  | nil =>
    intro st _ _
    obtain ⟨s1, s2, s3, s4, s5, s6, s7, s8, s9⟩ := st
    simp [processDeps]
  | cons d ds ih =>
    intro st hrdv hall
    obtain ⟨dn, dv⟩ := d
    obtain ⟨s1, s2, s3, s4, s5, s6, s7, s8, s9⟩ := st
    simp only at hrdv hall
    subst hrdv
    have h1 := hall (dn, dv) (List.mem_cons_self _ _)
    simp only at h1
    simp only [processDeps]
    rw [if_neg (by rw [h1.1]; exact Bool.false_ne_true)]
    dsimp only
    rw [if_neg h1.2]
    dsimp only [Option.getD]
    have hih := ih ⟨(dn, dv) :: s1, s2, s3, none, s5, s6, s7, s8 ++ [(dn, dv)], s9⟩
      rfl
      (by intro pr hpr
          exact hall pr (List.mem_cons_of_mem _ hpr))
    rw [hih]
    dsimp only
    simp only [List.map_cons, keyOfPair, List.reverse_cons, List.append_assoc,
      List.singleton_append, List.cons_append, List.nil_append]

theorem buildLoop_skip_all (sv : SemverOracle) (reg : Registry) :
    ∀ (es : List (String × String)) (fuel : Nat) (st : BuildState),
      st.stack = es →
      (∀ pr ∈ es, hasRangeChar pr.2 = false ∧ (pr.1 ++ "@" ++ pr.2) ∈ st.visited) →
      es.length ≤ fuel →
      buildLoop sv reg fuel st =
        { st with stack := [], iterations := st.iterations + es.length } := by
  intro es
  induction es with
  | nil =>
    intro fuel st hstack _ _
    rw [buildLoop_empty_stack sv reg fuel st hstack]
    obtain ⟨s1, s2, s3, s4, s5, s6, s7, s8, s9⟩ := st
    simp only at hstack
    rw [hstack]
    rfl
  | cons e es ih =>
    intro fuel st hstack hall hfuel
    obtain ⟨en, ev⟩ := e
    obtain ⟨s1, s2, s3, s4, s5, s6, s7, s8, s9⟩ := st
    simp only at hstack
    subst hstack
    cases fuel with
    | zero => simp at hfuel
    | succ n =>
      rw [buildLoop]
      simp only []
      have h1 := hall (en, ev) (List.mem_cons_self _ _)
      simp only at h1
      have hrv : resolveNodeVersion sv reg en ev = (ev, 0) := by
        unfold resolveNodeVersion
        rw [if_neg (by rw [h1.1]; exact Bool.false_ne_true)]
      rw [hrv]
      dsimp only
      rw [if_pos h1.2]
      have hih := ih n ⟨es, s2, s3, s4, s5, s6 + 0, s7, s8, s9 + 1⟩ rfl
        (by intro pr hpr
            have := hall pr (List.mem_cons_of_mem _ hpr)
            dsimp only
            exact this)
        (by simp only [List.length_cons] at hfuel; omega)
      rw [hih]
      dsimp only
      simp only [Nat.add_zero, List.length_cons]
      have h2 : s9 + 1 + es.length = s9 + (es.length + 1) := by omega
      rw [h2]

theorem buildLoop_step_ok (sv : SemverOracle) (reg : Registry) (fuel : Nat)
    (package version0 : String) (rest : List (String × String))
    (s2 : List String) (s3 : Graph) (s4 : Option String)
    (s5 : List (String × String)) (s6 : Nat) (s7 : List String)
    (s8 : List (String × String)) (s9 : Nat)
    (deps : List (String × String))
    (hnr : hasRangeChar version0 = false)
    (hnv : package ++ "@" ++ version0 ∉ s2)
    (hfetch : get_npm_package_info reg package version0 = .ok deps) :
    buildLoop sv reg (fuel + 1)
      ⟨(package, version0) :: rest, s2, s3, s4, s5, s6, s7, s8, s9⟩ =
    buildLoop sv reg fuel
      { (processDeps sv reg deps
          ⟨rest, s2 ++ [package ++ "@" ++ version0], s3, s4,
           s5 ++ [(package, version0)], s6, s7, s8, s9 + 1⟩).2 with
        dependency_graph := (processDeps sv reg deps
          ⟨rest, s2 ++ [package ++ "@" ++ version0], s3, s4,
           s5 ++ [(package, version0)], s6, s7, s8, s9 + 1⟩).2.dependency_graph ++
          [(package ++ "@" ++ version0,
            (processDeps sv reg deps
          ⟨rest, s2 ++ [package ++ "@" ++ version0], s3, s4,
           s5 ++ [(package, version0)], s6, s7, s8, s9 + 1⟩).1)] } := by
  rw [buildLoop]
  simp only []
  have hrv : resolveNodeVersion sv reg package version0 = (version0, 0) := by
    unfold resolveNodeVersion
    rw [if_neg (by rw [hnr]; exact Bool.false_ne_true)]
  rw [hrv]
  dsimp only
  rw [if_neg hnv, hfetch]
  dsimp only
  simp only [Nat.add_zero]

theorem buildLoop_step_error (sv : SemverOracle) (reg : Registry) (fuel : Nat)
    (package version0 : String) (rest : List (String × String))
    (s2 : List String) (s3 : Graph) (s4 : Option String)
    (s5 : List (String × String)) (s6 : Nat) (s7 : List String)
    (s8 : List (String × String)) (s9 : Nat) (msg : String)
    (hnr : hasRangeChar version0 = false)
    (hnv : package ++ "@" ++ version0 ∉ s2)
    (hfetch : get_npm_package_info reg package version0 = .error msg) :
    buildLoop sv reg (fuel + 1)
      ⟨(package, version0) :: rest, s2, s3, s4, s5, s6, s7, s8, s9⟩ =
    buildLoop sv reg fuel
      ⟨rest, s2 ++ [package ++ "@" ++ version0],
       s3 ++ [(package ++ "@" ++ version0, [])], s4,
       s5 ++ [(package, version0)], s6,
       s7 ++ [package ++ "@" ++ version0], s8, s9 + 1⟩ := by
  rw [buildLoop]
  simp only []
  have hrv : resolveNodeVersion sv reg package version0 = (version0, 0) := by
    unfold resolveNodeVersion
    rw [if_neg (by rw [hnr]; exact Bool.false_ne_true)]
  rw [hrv]
  dsimp only
  rw [if_neg hnv, hfetch]
  dsimp only
  simp only [Nat.add_zero]

theorem famBuild (e : Nat) :
    (build_graph_from_npm sv0 (famReg (e + 1)) "r" "1").iterations = e + 2 ∧
    (build_graph_from_npm sv0 (famReg (e + 1)) "r" "1").visited =
      ["r" ++ "@" ++ "1", famKey (e + 1)] := by
  have hfuel : buildFuel (famReg (e + 1)) = e + 1 + 1 + 1 := by
    simp [buildFuel, registryTotalDeps, famReg, famDeps]
  have hfr : get_npm_package_info (famReg (e + 1)) "r" "1" = .ok (famDeps (e + 1)) := rfl
  have hall1 : ∀ pr ∈ famDeps (e + 1), hasRangeChar pr.2 = false ∧
      pr.1 ++ "@" ++ pr.2 ∉ ([] ++ ["r" ++ "@" ++ "1"] : List String) := by
    intro pr hpr
    rcases List.mem_map.mp hpr with ⟨i, hi, hpr'⟩
    have hid : i < e + 1 := List.mem_range.mp hi
    subst hpr'
    refine ⟨famVer_no_range _ _, ?_⟩
    dsimp only
    rw [famKey_eq (e + 1) i hid]
    intro hmem
    rw [List.nil_append] at hmem
    exact famKey_ne_rkey (e + 1) (List.mem_singleton.mp hmem)
  have hpd := processDeps_all_pushed sv0 (famReg (e + 1)) (famDeps (e + 1))
    ⟨[], [] ++ ["r" ++ "@" ++ "1"], [], none, [] ++ [("r", "1")], 0, [], [], 0 + 1⟩
    rfl hall1
  have hstep1 := buildLoop_step_ok sv0 (famReg (e + 1)) (e + 1 + 1) "r" "1"
    [] [] [] none [] 0 [] [] 0 (famDeps (e + 1)) (by decide)
    (List.not_mem_nil _) hfr
  rw [hpd] at hstep1
  dsimp only at hstep1
  simp only [List.nil_append, List.append_nil, Nat.zero_add] at hstep1
  have hrev : (famDeps (e + 1)).reverse =
      (famName e, famVer (e + 1) e) ::
        ((List.range e).map (fun i => (famName i, famVer (e + 1) i))).reverse := by
    unfold famDeps
    rw [List.range_succ, List.map_append, List.reverse_append]
    simp
  rw [hrev] at hstep1
  have hfe : get_npm_package_info (famReg (e + 1)) (famName e) (famVer (e + 1) e) =
      .error ("Пакет " ++ famName e ++ " не найден") := by
    unfold get_npm_package_info famReg
    dsimp only
    rw [lookup_cons_bne (famName_ne_r e)]
    rfl
  have hknv : famName e ++ "@" ++ famVer (e + 1) e ∉ (["r" ++ "@" ++ "1"] : List String) := by
    rw [famKey_eq (e + 1) e (by omega)]
    intro hmem
    exact famKey_ne_rkey (e + 1) (List.mem_singleton.mp hmem)
  have hstep2 := buildLoop_step_error sv0 (famReg (e + 1)) (e + 1) (famName e)
    (famVer (e + 1) e)
    (((List.range e).map (fun i => (famName i, famVer (e + 1) i))).reverse)
    (["r" ++ "@" ++ "1"])
    ([("r" ++ "@" ++ "1", List.map keyOfPair (famDeps (e + 1)))]) none
    ([("r", "1")]) 0 [] (famDeps (e + 1)) 1
    ("Пакет " ++ famName e ++ " не найден")
    (famVer_no_range _ _) hknv hfe
  rw [hstep2] at hstep1
  simp only [List.singleton_append, List.nil_append] at hstep1
  have hee : e < e + 1 := by omega
  rw [famKey_eq (e + 1) e hee] at hstep1
  have hallE : ∀ pr ∈ ((List.range e).map
      (fun i => (famName i, famVer (e + 1) i))).reverse,
      hasRangeChar pr.2 = false ∧
      pr.1 ++ "@" ++ pr.2 ∈
        (("r" ++ "@" ++ "1") :: [famKey (e + 1)] : List String) := by
    intro pr hpr
    rw [List.mem_reverse] at hpr
    rcases List.mem_map.mp hpr with ⟨i, hi, hpr'⟩
    have hid : i < e := List.mem_range.mp hi
    subst hpr'
    refine ⟨famVer_no_range _ _, ?_⟩
    dsimp only
    rw [famKey_eq (e + 1) i (by omega)]
    exact List.mem_cons_of_mem _ (List.mem_singleton_self _)
  have hlen : (((List.range e).map
      (fun i => (famName i, famVer (e + 1) i))).reverse).length ≤ e + 1 := by
    rw [List.length_reverse, List.length_map, List.length_range]
    omega
  have hskip := buildLoop_skip_all sv0 (famReg (e + 1))
    (((List.range e).map (fun i => (famName i, famVer (e + 1) i))).reverse)
    (e + 1)
    ⟨((List.range e).map (fun i => (famName i, famVer (e + 1) i))).reverse,
     ("r" ++ "@" ++ "1") :: [famKey (e + 1)],
     ("r" ++ "@" ++ "1", List.map keyOfPair (famDeps (e + 1))) ::
       [(famKey (e + 1), [])],
     none, ("r", "1") :: [(famName e, famVer (e + 1) e)], 0,
     [famKey (e + 1)], famDeps (e + 1), 1 + 1⟩
    rfl hallE hlen
  rw [hskip] at hstep1
  unfold build_graph_from_npm initBuildState
  rw [hfuel, hstep1]
  constructor
  · dsimp only
    rw [List.length_reverse, List.length_map, List.length_range]
    omega
  · rfl

/-- C5, counterexample.  No function of the number of distinct visited
package keys bounds the builder's loop iteration count over all finite
registries: in `famReg d` the root's `d` dependency declarations have
pairwise distinct names yet share one single key (their names contain
`@`, as npm scoped package names do), so the loop pops `d + 1` entries
while visiting exactly two distinct keys. -/
theorem build_iterations_not_bounded_by_key_count :
    ¬ ∃ f : Nat → Nat, ∀ (sv : SemverOracle) (reg : Registry)
      (start_package start_version : String),
      (build_graph_from_npm sv reg start_package start_version).iterations ≤
        f (build_graph_from_npm sv reg start_package start_version).visited.length := by
  rintro ⟨f, hf⟩
  have h := hf sv0 (famReg (f 2 + 1)) "r" "1"
  obtain ⟨h1, h2⟩ := famBuild (f 2)
  rw [h2] at h
  have hlen2 : (["r" ++ "@" ++ "1", famKey (f 2 + 1)] : List String).length = 2 := rfl
  rw [hlen2, h1] at h
  omega

end PackageAnalyzer
